import Mathlib

/-!
Verification development for the MyGpu device-vector library (BabelGPU).

The library is a CUDA/Thrust numeric engine: elementwise transforms fused
with an affine pre-transform and post-scale (`m * f(a*x + b)`), reductions,
sorting, column-major matrix fill and tiled transpose kernels, and composite
softmax routines.  Device arrays are modelled as Lean lists; `float` and
`double` arithmetic is modelled by exact arithmetic (ℚ where only ring and
order structure is used, ℝ where the code uses `exp` and `log`).  An
in-place overload and its out-of-place counterpart act on the same list
model; where a claim distinguishes them (work performed, aliasing) the model
carries an explicit same-buffer flag and an element-operation count.
-/

set_option maxHeartbeats 1000000

namespace MyGpu

/-- `GEN_linear_functor` (gpu_src/my_gpu.h lines 33-39): the fused functor
`functor_name(a, b, m)` whose `operator()` returns `m * name(a * x + b)`. -/
def functor_op {α : Type} [CommRing α] (f : α → α) (a b m x : α) : α :=
  m * f (a * x + b)

/-- `GEN_transf` out-of-place overload (gpu_src lines 45-50):
`thrust::transform` of the fused functor over `[begin, begin + size)`,
written to `out`. -/
def gpu_transf {α : Type} [CommRing α] (f : α → α) (a b m : α) (xs : List α) : List α :=
  xs.map (functor_op f a b m)

/-- `GEN_transf` in-place overload (gpu_src lines 52-56): delegates to the
out-of-place overload with `out = begin`. -/
def gpu_transf_ip {α : Type} [CommRing α] (f : α → α) (a b m : α) (xs : List α) : List α :=
  gpu_transf f a b m xs

/-- `GEN_linear_functor_2` (gpu_src lines 61-67): binary-function functor
`functor_name(p, a, b, m)` whose `operator()` returns `m * name(a * x + b, p)`. -/
def functor_op_2 {α : Type} [CommRing α] (f : α → α → α) (p a b m x : α) : α :=
  m * f (a * x + b) p

/-- `GEN_transf_2` out-of-place overload (gpu_src lines 73-78). -/
def gpu_transf_2 {α : Type} [CommRing α] (f : α → α → α) (p a b m : α) (xs : List α) : List α :=
  xs.map (functor_op_2 f p a b m)

/-- `GEN_transf_2` in-place overload (gpu_src lines 80-84): delegates to the
out-of-place overload with `out = begin`. -/
def gpu_transf_2_ip {α : Type} [CommRing α] (f : α → α → α) (p a b m : α) (xs : List α) :
    List α :=
  gpu_transf_2 f p a b m xs

/-- `GEN_linear_functor` / `GEN_transf_ftype` (MyThrust/my_gpu.h lines 32-78):
the per-type generation defines four functor variants `f(x)`, `f(x + b)`,
`f(a * x)`, `f(a * x + b)` and both `gpu_name_ftype` overloads dispatch on
whether `a == 1` and/or `b == 0`.  Both overloads map the same chosen
functor over the range, so one list function models both. -/
def gpu_transf_ftype {α : Type} [CommRing α] [DecidableEq α] (f : α → α) (a b : α)
    (xs : List α) : List α :=
  if a = 1 ∧ b = 0 then xs.map fun x => f x
  else if a = 1 then xs.map fun x => f (x + b)
  else if b = 0 then xs.map fun x => f (a * x)
  else xs.map fun x => f (a * x + b)

/-- `GEN_linear_functor_2` / `GEN_transf_ftype_2` (MyThrust lines 88-136):
binary-function analogue, threading the fixed second argument `p`. -/
def gpu_transf_ftype_2 {α : Type} [CommRing α] [DecidableEq α] (f : α → α → α) (a b p : α)
    (xs : List α) : List α :=
  if a = 1 ∧ b = 0 then xs.map fun x => f x p
  else if a = 1 then xs.map fun x => f (x + b) p
  else if b = 0 then xs.map fun x => f (a * x) p
  else xs.map fun x => f (a * x + b) p

/-- `gpu_linear` (gpu_src lines 159-177) with an element-operation count.
If `a == 1 && b == 0` it copies `size` elements when the buffers differ
(`thrust::copy_n`) and does nothing at all when they coincide; otherwise it
transforms with `functor_linear` (`a * x + b`) over the whole range.
`sameBuffer` models the pointer comparison `begin != out`; the second
component counts elements read or written. -/
def gpu_linear_run {α : Type} [CommRing α] [DecidableEq α] (a b : α) (xs : List α)
    (sameBuffer : Bool) : List α × Nat :=
  if a = 1 ∧ b = 0 then
    if sameBuffer then (xs, 0) else (xs, xs.length)
  else (xs.map fun x => a * x + b, xs.length)

/-- Resulting contents of the in-place `gpu_linear` overload (gpu_src
lines 173-177, delegating with `out = begin`). -/
def gpu_linear {α : Type} [CommRing α] [DecidableEq α] (a b : α) (xs : List α) : List α :=
  (gpu_linear_run a b xs true).1

/-- MyThrust plain linear transform `gpu__float` / `gpu__double`
(`GEN_transf()` at MyThrust line 171, macro lines 54-78): the elementary
function is empty, so the four functor variants return `(x)`, `(x + b)`,
`(a * x)`, `(a * x + b)`.  Every dispatch branch launches a
`thrust::transform` over the whole range, so the element-operation count is
the size in all cases, including `a == 1 && b == 0` on the same buffer. -/
def gpu_linear_mythrust_run {α : Type} [CommRing α] [DecidableEq α] (a b : α)
    (xs : List α) : List α × Nat :=
  (gpu_transf_ftype (fun x => x) a b xs, xs.length)

/-- Captured scalars of the unary fused functor (gpu_src lines 34-39). -/
structure functor_1_src (α : Type) where
  a : α
  b : α
  m : α

/-- Unary functor constructor with every argument defaulted
(gpu_src line 37: `functor_name(T _a = 1, T _b = 0, T _m = 1)`). -/
def functor_1_mk (α : Type) [One α] [Zero α] : functor_1_src α :=
  ⟨1, 0, 1⟩

/-- `operator()` of the unary fused functor (gpu_src line 38). -/
def functor_1_src.app {α : Type} [CommRing α] (F : functor_1_src α) (f : α → α) (x : α) : α :=
  F.m * f (F.a * x + F.b)

/-- Captured scalars of the binary fused functor (gpu_src lines 62-67). -/
structure functor_2_src (α : Type) where
  p : α
  a : α
  b : α
  m : α

/-- Binary functor constructor with the affine arguments defaulted
(gpu_src line 65: `functor_name(T _p, T _a = 1, T _b = 0, T _m = 0)`) —
note the source defaults `_m` to `0`, not `1`. -/
def functor_2_mk (α : Type) [One α] [Zero α] (p : α) : functor_2_src α :=
  ⟨p, 1, 0, 0⟩

/-- `operator()` of the binary fused functor (gpu_src line 66). -/
def functor_2_src.app {α : Type} [CommRing α] (F : functor_2_src α) (f : α → α → α)
    (x : α) : α :=
  F.m * f (F.a * x + F.b) F.p

/-- Claim C1: for every elementary function `f` (and binary `g` with fixed
parameter `p`), every affine triple `(a, b, m)` and every position `i`, the
fused transform writes `m * f(a * x + b)` (resp. `m * g(a * x + b, p)`) at
position `i` of the output, for the out-of-place and in-place overloads of
the generic gpu_src generation and for the dispatching MyThrust generation
(whose functors carry no post-scale, i.e. `m = 1`). -/
theorem transf_fused_affine (f : ℝ → ℝ) (g : ℝ → ℝ → ℝ) (p a b m : ℝ) (xs : List ℝ)
    (i : ℕ) :
    (gpu_transf f a b m xs)[i]? = xs[i]?.map (fun x => m * f (a * x + b))
    ∧ (gpu_transf_ip f a b m xs)[i]? = xs[i]?.map (fun x => m * f (a * x + b))
    ∧ (gpu_transf_2 g p a b m xs)[i]? = xs[i]?.map (fun x => m * g (a * x + b) p)
    ∧ (gpu_transf_2_ip g p a b m xs)[i]? = xs[i]?.map (fun x => m * g (a * x + b) p)
    ∧ (gpu_transf_ftype f a b xs)[i]? = xs[i]?.map (fun x => f (a * x + b))
    ∧ (gpu_transf_ftype_2 g a b p xs)[i]? = xs[i]?.map (fun x => g (a * x + b) p) := by
  have hf : functor_op f a b m = fun x => m * f (a * x + b) := rfl
  have hg : functor_op_2 g p a b m = fun x => m * g (a * x + b) p := rfl
  refine ⟨?_, ?_, ?_, ?_, ?_, ?_⟩
  · rw [gpu_transf, List.getElem?_map, hf]
  · rw [gpu_transf_ip, gpu_transf, List.getElem?_map, hf]
  · rw [gpu_transf_2, List.getElem?_map, hg]
  · rw [gpu_transf_2_ip, gpu_transf_2, List.getElem?_map, hg]
  · by_cases h2 : a = 1
    · subst h2
      by_cases h3 : b = 0
      · subst h3
        simp [gpu_transf_ftype, List.getElem?_map]
      · simp [gpu_transf_ftype, h3, List.getElem?_map]
    · by_cases h3 : b = 0
      · subst h3
        simp [gpu_transf_ftype, h2, List.getElem?_map]
      · simp [gpu_transf_ftype, h2, h3, List.getElem?_map]
  · by_cases h2 : a = 1
    · subst h2
      by_cases h3 : b = 0
      · subst h3
        simp [gpu_transf_ftype_2, List.getElem?_map]
      · simp [gpu_transf_ftype_2, h3, List.getElem?_map]
    · by_cases h3 : b = 0
      · subst h3
        simp [gpu_transf_ftype_2, h2, List.getElem?_map]
      · simp [gpu_transf_ftype_2, h2, h3, List.getElem?_map]

/-- Claim C3, counterexample: the claim asserts that the pure-affine
transform performs zero work in the identity in-place case, citing both
generations; but the MyThrust plain-linear (`gpu__float`, macro
`GEN_transf_ftype` with an empty function name) launches a transform over
the whole range even when `a = 1` and `b = 0`, performing 2 element
operations on the concrete 2-element array `[1, 2]`. -/
theorem linear_identity_zero_work_cex :
    (gpu_linear_mythrust_run (1 : ℚ) 0 [1, 2]).2 ≠ 0 := by
  decide

/-- Claim C3, amended: the gpu_src `gpu_linear` with identity parameters
`a = 1, b = 0` performs zero element operations and leaves the contents
unchanged when input and output are the same buffer, and produces an exact
element-for-element copy (size operations) when they are distinct buffers;
the MyThrust plain-linear transform also leaves the contents equal to the
input under identity parameters, but always traverses the whole array
(size element operations) rather than performing zero work. -/
theorem linear_identity_amended (xs : List ℚ) :
    gpu_linear_run (1 : ℚ) 0 xs true = (xs, 0)
    ∧ gpu_linear_run (1 : ℚ) 0 xs false = (xs, xs.length)
    ∧ gpu_linear_mythrust_run (1 : ℚ) 0 xs = (xs, xs.length) := by
  refine ⟨?_, ?_, ?_⟩
  · simp [gpu_linear_run]
  · simp [gpu_linear_run]
  · simp [gpu_linear_mythrust_run, gpu_transf_ftype]

/-- Claim C8, code-bug evidence: the gpu_src binary functor constructor
(`GEN_linear_functor_2`, line 65) defaults `_m` to `0`, so a binary functor
constructed without explicit affine arguments computes `0 * f(1 * x + 0, p)
= 0` instead of the plain `f(x, p)` the claim (and the surrounding design:
the unary constructor and every wrapper default `m = 1`) requires.  With
`f(x, p) = x * p`, `p = 2`, `x = 3`: the default-constructed binary functor
returns `0` while `f(3, 2) = 6`.  The unary constructor does default to
`a = 1, b = 0, m = 1` and yields plain `f(x)`. -/
theorem functor_default_m_zero :
    (functor_2_mk ℚ 2).app (fun x p => x * p) 3 = 0
    ∧ (fun (x p : ℚ) => x * p) 3 2 = 6
    ∧ (functor_1_mk ℚ).app (fun x => x * x) 3 = (fun (x : ℚ) => x * x) 3 := by
  refine ⟨?_, ?_, ?_⟩ <;>
    norm_num [functor_2_src.app, functor_1_src.app, functor_2_mk, functor_1_mk]

/-- `gpu_sort` (gpu_src lines 267-274) and `GEN_sort` (MyThrust lines
253-262): `thrust::sort` ascending (default `less` comparator) when
`dir > 0`, descending (`greater` comparator) otherwise, in place.  A
comparison sort over a linearly ordered element type produces the unique
sorted permutation of its input, so the unstable `thrust::sort` is modelled
extensionally by insertion sort. -/
def gpu_sort {α : Type} [LinearOrder α] (xs : List α) (dir : ℤ) : List α :=
  if dir > 0 then xs.insertionSort (· ≤ ·)
  else xs.insertionSort (· ≥ ·)

/-- Claim C5: `sort(array, dir)` returns a permutation of the array that is
ascending when `dir > 0` and descending otherwise; sorting ascending and
then sorting the result descending yields the reverse of the ascending
order; and sorting an already-sorted array in the same direction returns it
unchanged. -/
theorem sort_direction_spec (xs : List ℚ) (dir : ℤ) :
    (gpu_sort xs dir).Perm xs
    ∧ (0 < dir → (gpu_sort xs dir).Sorted (· ≤ ·))
    ∧ (¬ 0 < dir → (gpu_sort xs dir).Sorted (· ≥ ·))
    ∧ gpu_sort (gpu_sort xs 1) (-1) = (gpu_sort xs 1).reverse
    ∧ (0 < dir → xs.Sorted (· ≤ ·) → gpu_sort xs dir = xs)
    ∧ (¬ 0 < dir → xs.Sorted (· ≥ ·) → gpu_sort xs dir = xs) := by
  refine ⟨?_, ?_, ?_, ?_, ?_, ?_⟩
  · unfold gpu_sort
    split <;> exact List.perm_insertionSort _ _
  · intro h
    rw [gpu_sort, if_pos h]
    exact List.sorted_insertionSort _ _
  · intro h
    rw [gpu_sort, if_neg h]
    exact List.sorted_insertionSort _ _
  · have h1 : gpu_sort (gpu_sort xs 1) (-1) = (gpu_sort xs 1).insertionSort (· ≥ ·) := by
      rw [gpu_sort, if_neg (by omega)]
    have hasc : (gpu_sort xs 1).Sorted (· ≤ ·) := by
      rw [gpu_sort, if_pos (by omega)]
      exact List.sorted_insertionSort _ _
    have hrev : ((gpu_sort xs 1).reverse).Sorted (· ≥ ·) := by
      rw [List.Sorted, List.pairwise_reverse]
      exact hasc
    rw [h1]
    refine List.eq_of_perm_of_sorted ?_ (List.sorted_insertionSort _ _) hrev
    exact (List.perm_insertionSort _ _).trans (gpu_sort xs 1).reverse_perm.symm
  · intro h hs
    rw [gpu_sort, if_pos h]
    exact hs.insertionSort_eq
  · intro h hs
    rw [gpu_sort, if_neg h]
    exact hs.insertionSort_eq

/-- Claim C5 witness: concrete instances of `sort_direction_spec` on small
rational arrays, with the direction hypotheses discharged by computation. -/
theorem sort_direction_witness :
    (gpu_sort ([2, 1, 2] : List ℚ) 1).Sorted (· ≤ ·)
    ∧ gpu_sort ([1, 2, 2] : List ℚ) 1 = [1, 2, 2]
    ∧ (gpu_sort ([2, 1, 2] : List ℚ) (-1)).Sorted (· ≥ ·) :=
  ⟨(sort_direction_spec [2, 1, 2] 1).2.1 (by decide),
   (sort_direction_spec [1, 2, 2] 1).2.2.2.2.1 (by decide) (by decide),
   (sort_direction_spec [2, 1, 2] (-1)).2.2.1 (by decide)⟩

/-- `thrust::fill_n(begin + start, n, v)` on the list model: the contiguous
positions `[start, start + n)` are overwritten with `v`. -/
def fill_n {α : Type} (xs : List α) (start n : ℕ) (v : α) : List α :=
  xs.take start ++ List.replicate n v ++ xs.drop (start + n)

/-- `gpu_fill_col_float` (MyThrust lines 385-389): resolve a negative
column index by adding `col`, then `fill_n` the `row` contiguous elements
of that column of the column-major matrix. -/
def gpu_fill_col_float {α : Type} (xs : List α) (row col : ℕ) (colIdx : ℤ) (v : α) :
    List α :=
  let c := if colIdx < 0 then colIdx + col else colIdx
  fill_n xs (row * c.toNat) row v

/-- `gpu_fill_row_float` and its kernel (MyThrust lines 393-413): resolve a
negative row index by adding `row`; the kernel runs one guarded thread per
column index `idx < col` (threads beyond `col` from the block-size rounding
return at `ThreadIndex1D`), each writing `begin[row * idx + rowIdx] = v`. -/
def gpu_fill_row_float {α : Type} (xs : List α) (row col : ℕ) (rowIdx : ℤ) (v : α) :
    List α :=
  let r := if rowIdx < 0 then rowIdx + row else rowIdx
  (List.range col).foldl (fun acc j => acc.set (row * j + r.toNat) v) xs

/-- Elementwise description of `fill_n`: position `i` holds `v` inside the
filled window and the original element outside it. -/
theorem fill_n_getElem {α : Type} (xs : List α) (s n : ℕ) (v : α)
    (h : s + n ≤ xs.length) (i : ℕ) :
    (fill_n xs s n v)[i]? = if s ≤ i ∧ i < s + n then some v else xs[i]? := by
  have hs : (xs.take s).length = s := by
    rw [List.length_take]
    omega
  have hs2 : (xs.take s ++ List.replicate n v).length = s + n := by
    rw [List.length_append, hs, List.length_replicate]
  rw [fill_n, List.getElem?_append, hs2]
  by_cases hlt : i < s + n
  · rw [if_pos hlt, List.getElem?_append, hs]
    by_cases h1 : i < s
    · rw [if_pos h1, List.getElem?_take, if_pos h1, if_neg (by omega)]
    · rw [if_neg h1, List.getElem?_replicate, if_pos (by omega), if_pos (by omega)]
  · rw [if_neg hlt, List.getElem?_drop, if_neg (by omega)]
    congr 1
    omega

/-- Claim C7: for the row and column fill operations on a column-major
matrix, a negative index resolves to `index + dimension` (stated for any
in-range negative index), and `fillColumn` with a valid resolved column
index sets exactly the `row` contiguous elements of that column to `v`,
leaving every other element unchanged. -/
theorem fill_col_row_spec (xs : List ℚ) (row col : ℕ) (cIdx cIdx2 rIdx : ℤ) (v : ℚ)
    (hlen : xs.length = row * col) (hc0 : 0 ≤ cIdx) (hc1 : cIdx < (col : ℤ)) :
    (rIdx < 0 → 0 ≤ rIdx + row →
      gpu_fill_row_float xs row col rIdx v = gpu_fill_row_float xs row col (rIdx + row) v)
    ∧ (cIdx2 < 0 → 0 ≤ cIdx2 + col →
      gpu_fill_col_float xs row col cIdx2 v = gpu_fill_col_float xs row col (cIdx2 + col) v)
    ∧ ∀ i : ℕ, (gpu_fill_col_float xs row col cIdx v)[i]? =
        if row * cIdx.toNat ≤ i ∧ i < row * cIdx.toNat + row then some v else xs[i]? := by
  refine ⟨?_, ?_, ?_⟩
  · intro hneg hpos
    rw [gpu_fill_row_float, gpu_fill_row_float]
    rw [if_pos hneg, if_neg (by omega)]
  · intro hneg hpos
    rw [gpu_fill_col_float, gpu_fill_col_float]
    rw [if_pos hneg, if_neg (by omega)]
  · intro i
    rw [gpu_fill_col_float]
    rw [if_neg (by omega)]
    refine fill_n_getElem xs (row * cIdx.toNat) row v ?_ i
    have hcn : cIdx.toNat < col := by omega
    calc row * cIdx.toNat + row = row * (cIdx.toNat + 1) := by ring
    _ ≤ row * col := Nat.mul_le_mul_left row hcn
    _ = xs.length := hlen.symm

/-- Claim C7 witness: on a 5-row, 1-column matrix, row index -1 fills the
same elements as row index -1 + 5 = 4, and filling column 0 puts the value
at position 2 of the flat array. -/
theorem fill_col_row_witness :
    gpu_fill_row_float (List.replicate 5 (0 : ℚ)) 5 1 (-1) 7
      = gpu_fill_row_float (List.replicate 5 (0 : ℚ)) 5 1 (-1 + 5) 7
    ∧ (gpu_fill_col_float (List.replicate 5 (0 : ℚ)) 5 1 0 7)[2]? = some 7 := by
  have h := fill_col_row_spec (List.replicate 5 (0 : ℚ)) 5 1 0 0 (-1) 7
    (by decide) (by decide) (by decide)
  refine ⟨h.1 (by decide) (by decide), ?_⟩
  have h2 := h.2.2 2
  simpa using h2

/-- `thrust::minstd_rand` state update: the linear congruential step
`s -> 48271 * s mod 2147483647` (multiplier 48271, modulus 2^31 - 1). -/
def minstd_next (s : ℕ) : ℕ :=
  (48271 * s) % 2147483647

/-- `rng.discard(n)`: advance the engine state `n` steps. -/
def minstd_discard (s n : ℕ) : ℕ :=
  minstd_next^[n] s

/-- Stream position of the single engine draw consumed by the functor call
at `index`: `rng.discard(index)` skips past positions `0 .. index - 1` and
the subsequent distribution sample consumes position `index`. -/
def samplePos (index : ℕ) : ℕ :=
  index

/-- `rand_normal_struct` (gpu_src lines 209-222): each call default-
constructs a fresh `minstd_rand` (default seed 1), discards `index` draws,
then samples `dist(rng)` once.  The normal distribution itself is external
thrust library code; it is modelled as an abstract function `dist` of the
one engine draw the sample consumes. -/
def rand_normal_struct (dist : ℕ → ℚ) (index : ℕ) : ℚ :=
  dist (minstd_next (minstd_discard 1 index))

/-- `gpu_fill_rand_normal` (gpu_src lines 223-230): transform of the
counting iterator range `[0, size)` through `rand_normal_struct`. -/
def gpu_fill_rand_normal (dist : ℕ → ℚ) (size : ℕ) : List ℚ :=
  (List.range size).map (rand_normal_struct dist)

/-- Claim C9: `fillRandomNormal` is deterministic — the element at index
`i` is the distribution applied to the draw of the fixed-seed engine
advanced past exactly `i` discarded draws — and the stream positions
consumed by two distinct indices never collide. -/
theorem fill_rand_normal_spec (dist : ℕ → ℚ) (size i : ℕ) :
    (gpu_fill_rand_normal dist size)[i]? =
      (if i < size then some (dist (minstd_next (minstd_discard 1 i))) else none)
    ∧ ∀ j : ℕ, i ≠ j → samplePos i ≠ samplePos j := by
  constructor
  · rw [gpu_fill_rand_normal, List.getElem?_map]
    by_cases h : i < size
    · rw [List.getElem?_range h, if_pos h]
      rfl
    · rw [if_neg h, List.getElem?_eq_none (by simpa using Nat.le_of_not_lt h)]
      rfl
  · intro j hij
    simpa [samplePos] using hij

/-- Claim C9 witness: a concrete instance of `fill_rand_normal_spec`
(identity stand-in for the distribution, array of size 3, index 2). -/
theorem fill_rand_normal_witness :
    (gpu_fill_rand_normal (fun n => (n : ℚ)) 3)[2]? =
      some ((minstd_next (minstd_discard 1 2) : ℕ) : ℚ)
    ∧ samplePos 1 ≠ samplePos 2 :=
  ⟨by simpa using (fill_rand_normal_spec (fun n => (n : ℚ)) 3 2).1,
   (fill_rand_normal_spec (fun n => (n : ℚ)) 3 1).2 2 (by decide)⟩

/-- Extent of one grid dimension of the transpose launch that is actually
written: indices must lie inside the matrix bound `d` and be reachable by
the `max(d / 16, 1)` blocks of `BLOCK_DIM = 16` threads (integer
division), per `gpu_transpose_float` (MyThrust line 448). -/
def coverLimit (d : ℕ) : ℕ :=
  min d (16 * max (d / 16) 1)

/-- `gpu_transpose_float` and its kernel (MyThrust lines 420-453).  The
kernel is launched with `width = row`, `height = col`.  A thread with
transposed coordinates `(x2, y2)` (both bounded by the grid span) writes
`out[y2 * col + x2] = block[tx][ty]` under the guard `x2 < col ∧ y2 < row`;
the shared-memory slot `block[tx][ty]` was filled, under an identical
guard, by the partner thread that read `in[x2 * row + y2]`, so every
executed write transfers exactly that input element.  Positions of `out`
no thread writes keep their previous contents.  Decomposing the flat
output index `k` as `y2 = k / col`, `x2 = k % col` yields this functional
form. -/
def gpu_transpose_float {α : Type} [Inhabited α] (inp : List α) (row col : ℕ)
    (out : List α) : List α :=
  (List.range out.length).map fun k =>
    if k / col < coverLimit row ∧ k % col < coverLimit col then
      inp.getD (k % col * row + k / col) default
    else out.getD k default

/-- Claim C6 counterexample: for a 17-row, 1-column matrix holding
`1 .. 17` the launch uses `max(17 / 16, 1) = 1` block, covering only
indices `0 .. 15` of the long dimension, so the seventeenth element is
never transported: transposing twice (output buffers zero-initialized)
does not return the original matrix. -/
theorem transpose_roundtrip_cex :
    gpu_transpose_float
        (gpu_transpose_float
          ([1, 2, 3, 4, 5, 6, 7, 8, 9, 10, 11, 12, 13, 14, 15, 16, 17] : List ℚ)
          17 1 (List.replicate 17 0))
        1 17 (List.replicate 17 0)
      ≠ [1, 2, 3, 4, 5, 6, 7, 8, 9, 10, 11, 12, 13, 14, 15, 16, 17] := by
  decide

/-- The grid fully covers a dimension exactly when it is at most one tile
(16) or a whole number of tiles. -/
theorem coverLimit_eq_self (d : ℕ) (h : d ≤ 16 ∨ 16 ∣ d) : coverLimit d = d := by
  unfold coverLimit
  omega

/-- Element `j` of a mapped range, for `j` in range. -/
theorem range_map_getD {β : Type} (n j : ℕ) (g : ℕ → β) (d : β) (h : j < n) :
    ((List.range n).map g).getD j d = g j := by
  rw [List.getD_eq_getElem?_getD, List.getElem?_map, List.getElem?_range h]
  rfl

/-- Claim C6, amended: the transpose round trip
`transpose(transpose(M)) = M` holds for every matrix whose row count and
column count are each either at most 16 or a multiple of 16 (the
dimensions the `max(dim / 16, 1)` grid actually covers); boundary-guarded
threads outside the true matrix bounds skip their accesses without
corrupting any in-bounds element. -/
theorem transpose_roundtrip_amended (inp out1 out2 : List ℚ) (row col : ℕ)
    (hrow : row ≤ 16 ∨ 16 ∣ row) (hcol : col ≤ 16 ∨ 16 ∣ col)
    (h1 : inp.length = row * col) (h2 : out1.length = row * col)
    (h3 : out2.length = row * col) :
    gpu_transpose_float (gpu_transpose_float inp row col out1) col row out2 = inp := by
  have hr := coverLimit_eq_self row hrow
  have hc := coverLimit_eq_self col hcol
  apply List.ext_getElem?
  intro k
  rw [gpu_transpose_float, List.getElem?_map]
  by_cases hk : k < out2.length
  · have hkrc : k < row * col := by omega
    have hrowpos : 0 < row := by
      rcases Nat.eq_zero_or_pos row with h0 | h0
      · subst h0
        simp at hkrc
      · exact h0
    have hcolpos : 0 < col := by
      rcases Nat.eq_zero_or_pos col with h0 | h0
      · subst h0
        simp at hkrc
      · exact h0
    have hb : k % row < row := Nat.mod_lt _ hrowpos
    have ha : k / row < col := by
      rw [Nat.div_lt_iff_lt_mul hrowpos, Nat.mul_comm col row]
      exact hkrc
    rw [List.getElem?_range hk, Option.map_some']
    rw [if_pos (by rw [hr, hc]; exact ⟨ha, hb⟩)]
    set j := k % row * col + k / row with hj
    have hjcol : (k % row + 1) * col = k % row * col + col := by ring
    have hjle : (k % row + 1) * col ≤ row * col := Nat.mul_le_mul_right col (by omega)
    have hjlt : j < row * col := by omega
    have hgd : (gpu_transpose_float inp row col out1).getD j default =
        (if j / col < coverLimit row ∧ j % col < coverLimit col then
          inp.getD (j % col * row + j / col) default
        else out1.getD j default) := by
      rw [gpu_transpose_float]
      exact range_map_getD out1.length j _ default (by omega)
    have hjdiv : j / col = k % row := by
      rw [hj, mul_comm (k % row) col, Nat.mul_add_div hcolpos, Nat.div_eq_of_lt ha]
      ring
    have hjmod : j % col = k / row := by
      rw [hj, mul_comm (k % row) col, Nat.mul_add_mod, Nat.mod_eq_of_lt ha]
    rw [hgd, if_pos (by rw [hjdiv, hjmod, hr, hc]; exact ⟨hb, ha⟩)]
    have hidx : j % col * row + j / col = k := by
      rw [hjdiv, hjmod, mul_comm (k / row) row, Nat.div_add_mod]
    rw [hidx]
    have hkin : k < inp.length := by omega
    rw [List.getD_eq_getElem?_getD, List.getElem?_eq_getElem hkin]
    rfl
  · have hA : (List.range out2.length).length ≤ k := by
      simpa using Nat.le_of_not_lt hk
    have hB : inp.length ≤ k := by omega
    rw [List.getElem?_eq_none hA, List.getElem?_eq_none hB]
    rfl

/-- Claim C6 witness: the amended round trip on the concrete 2x2 matrix
`[1, 2, 3, 4]` (column-major) with zeroed intermediate buffers. -/
theorem transpose_roundtrip_witness :
    gpu_transpose_float
        (gpu_transpose_float ([1, 2, 3, 4] : List ℚ) 2 2 (List.replicate 4 0))
        2 2 (List.replicate 4 0) = [1, 2, 3, 4] :=
  transpose_roundtrip_amended [1, 2, 3, 4] (List.replicate 4 0) (List.replicate 4 0) 2 2
    (Or.inl (by decide)) (Or.inl (by decide)) (by decide) (by decide) (by decide)

/-- `gpu_max` (gpu_src lines 259-264): `thrust::max_element` dereferenced.
An empty range is undefined behaviour in the source (it dereferences the
end iterator); the model returns `default` there. -/
def gpu_max {α : Type} [LinearOrder α] [Inhabited α] : List α → α
  | [] => default
  | x :: xs => xs.foldl max x

/-- `gpu_sum` (gpu_src lines 296-298): `thrust::reduce` with seed `0` and
`plus`.  The combination order is unspecified by contract; the model uses
the list sum. -/
def gpu_sum {α : Type} [AddCommMonoid α] (xs : List α) : α :=
  xs.sum

/-- `gpu_exp` (generated by `GEN_transf(exp)`, gpu_src line 90): the fused
exp transform; both overloads produce these output contents. -/
noncomputable def gpu_exp (xs : List ℝ) (a b m : ℝ) : List ℝ :=
  gpu_transf Real.exp a b m xs

/-- `gpu_softmax` (gpu_src lines 382-395): `mx = max`, fused
`exp(1 * x + (-mx))` with `m` defaulted to `1`, `s = sum`, then the
in-place affine fast path with `a = 1/s, b = 0`.  Both overloads produce
these output contents. -/
noncomputable def gpu_softmax (xs : List ℝ) : List ℝ :=
  let mx := gpu_max xs
  let out := gpu_exp xs 1 (-mx) 1
  let s := gpu_sum out
  gpu_linear (1 / s) 0 out

/-- The statement `-- *(out + label)` (gpu_src line 402, 460): decrement
the element at `label` by one. -/
def decr_at (xs : List ℝ) (label : ℕ) : List ℝ :=
  xs.set label (xs.getD label 0 - 1)

/-- `gpu_softmax_minus_id` (gpu_src lines 397-409): softmax, then
decrement at the label; the in-place overload delegates. -/
noncomputable def gpu_softmax_minus_id (xs : List ℝ) (label : ℕ) : List ℝ :=
  decr_at (gpu_softmax xs) label

/-- `gpu_softmax_at_label` (gpu_src lines 413-422): computes `mx`, the
fused `transform_reduce` of `functor_exp(1, -mx)` under `plus`/`0.0`
(which reads but never writes the input), then
`sumLogProb = (begin[label] - mx) - log(expSum)`, writes it to
`outLogProb[0]` and returns it.  The model returns the final contents of
the input array, the final contents of the output buffer, and the return
value. -/
noncomputable def gpu_softmax_at_label (xs : List ℝ) (label : ℕ) (outLogProb : List ℝ) :
    List ℝ × List ℝ × ℝ :=
  let mx := gpu_max xs
  let expSum := gpu_sum (xs.map (functor_op Real.exp 1 (-mx) 1))
  let sumLogProb := (xs.getD label 0 - mx) - Real.log expSum
  (xs, outLogProb.set 0 sumLogProb, sumLogProb)

/-- `gpu_softmax_minus_id_2` (gpu_src lines 451-461), the deprecated
float-only path: `A = exp(A - (mx + log(sum(exp(A - mx)))))` in place,
then decrement at the label. -/
noncomputable def gpu_softmax_minus_id_2 (xs : List ℝ) (label : ℕ) : List ℝ :=
  let mx := gpu_max xs
  let logsum := Real.log (gpu_sum (xs.map (functor_op Real.exp 1 (-mx) 1)))
  decr_at (gpu_exp xs 1 (-(mx + logsum)) 1) label

/-- The fused exp functor with `a = 1, m = 1` is plain shifted exp. -/
theorem functor_exp_shift (m : ℝ) :
    functor_op Real.exp 1 (-m) 1 = fun x => Real.exp (x - m) := by
  funext x
  simp [functor_op, sub_eq_add_neg]

/-- `gpu_exp` with `a = 1, m = 1` maps shifted exp over the array. -/
theorem gpu_exp_shift (xs : List ℝ) (m : ℝ) :
    gpu_exp xs 1 (-m) 1 = xs.map fun x => Real.exp (x - m) := by
  rw [gpu_exp, gpu_transf, functor_exp_shift]

/-- The branch structure of `gpu_linear` collapses to one conditional on
the contents. -/
theorem gpu_linear_eq {α : Type} [CommRing α] [DecidableEq α] (a b : α) (xs : List α) :
    gpu_linear a b xs = if a = 1 ∧ b = 0 then xs else xs.map fun x => a * x + b := by
  rw [gpu_linear, gpu_linear_run]
  by_cases h : a = 1 ∧ b = 0
  · rw [if_pos h, if_pos h]
    rfl
  · rw [if_neg h, if_neg h]

/-- Folding `max` commutes with adding a constant to every element. -/
theorem foldl_max_map_add (l : List ℝ) (a c : ℝ) :
    (l.map fun x => x + c).foldl max (a + c) = l.foldl max a + c := by
  induction l generalizing a with
  | nil => rfl
  | cons x l ih =>
    simp only [List.map_cons, List.foldl_cons]
    rw [max_add_add_right]
    exact ih (a ⊔ x)

/-- `gpu_max` commutes with adding a constant to every element. -/
theorem gpu_max_map_add (xs : List ℝ) (c : ℝ) (h : xs ≠ []) :
    gpu_max (xs.map fun x => x + c) = gpu_max xs + c := by
  cases xs with
  | nil => exact absurd rfl h
  | cons x l =>
    simp only [List.map_cons, gpu_max]
    exact foldl_max_map_add l x c

/-- The softmax denominator (sum of shifted exponentials) is positive on a
non-empty array. -/
theorem softmax_denom_pos (xs : List ℝ) (m : ℝ) (h : xs ≠ []) :
    0 < gpu_sum (xs.map fun y => Real.exp (y - m)) := by
  rw [gpu_sum]
  refine List.sum_pos _ ?_ (by simpa using h)
  intro y hy
  obtain ⟨x, _, rfl⟩ := List.mem_map.mp hy
  exact Real.exp_pos _

/-- Closed form of `gpu_softmax`: each element becomes its shifted
exponential divided by the sum of all shifted exponentials. -/
theorem gpu_softmax_eq (xs : List ℝ) :
    gpu_softmax xs =
      xs.map fun x =>
        Real.exp (x - gpu_max xs) *
          (gpu_sum (xs.map fun y => Real.exp (y - gpu_max xs)))⁻¹ := by
  rw [gpu_softmax, gpu_exp_shift, gpu_linear_eq]
  set s := gpu_sum (xs.map fun y => Real.exp (y - gpu_max xs)) with hs
  by_cases hcase : (1 / s = 1 ∧ (0 : ℝ) = 0)
  · rw [if_pos hcase]
    have hs1 : s = 1 := by
      have h1 := hcase.1
      rw [one_div, inv_eq_one] at h1
      exact h1
    rw [hs1]
    simp
  · rw [if_neg hcase, List.map_map]
    refine List.map_congr_left ?_
    intro x _
    simp only [Function.comp]
    rw [one_div]
    ring

/-- Claim C2: on every non-empty input, the softmax output sums to 1,
softmax is invariant under adding the same constant to every element, and
the output follows the stable pattern: each element is
`exp(x - max) / sum(exp(x - max))`. -/
theorem softmax_sum_one_shift_invariant (xs : List ℝ) (h : xs ≠ []) :
    gpu_sum (gpu_softmax xs) = 1
    ∧ (∀ c : ℝ, gpu_softmax (xs.map fun x => x + c) = gpu_softmax xs)
    ∧ ∀ i : ℕ, (gpu_softmax xs)[i]? =
        xs[i]?.map fun x =>
          Real.exp (x - gpu_max xs) *
            (gpu_sum (xs.map fun y => Real.exp (y - gpu_max xs)))⁻¹ := by
  have hpos := softmax_denom_pos xs (gpu_max xs) h
  refine ⟨?_, ?_, ?_⟩
  · rw [gpu_softmax_eq, gpu_sum, List.sum_map_mul_right]
    exact mul_inv_cancel₀ (ne_of_gt hpos)
  · intro c
    rw [gpu_softmax_eq, gpu_softmax_eq, gpu_max_map_add xs c h, List.map_map]
    have hS : gpu_sum ((xs.map fun x => x + c).map fun y =>
          Real.exp (y - (gpu_max xs + c))) =
        gpu_sum (xs.map fun y => Real.exp (y - gpu_max xs)) := by
      rw [List.map_map]
      congr 1
      refine List.map_congr_left ?_
      intro x _
      simp only [Function.comp]
      congr 1
      ring
    rw [hS]
    refine List.map_congr_left ?_
    intro x _
    simp only [Function.comp]
    have harg : x + c - (gpu_max xs + c) = x - gpu_max xs := by ring
    rw [harg]
  · intro i
    rw [gpu_softmax_eq, List.getElem?_map]

/-- Claim C2 witness: a concrete instance of
`softmax_sum_one_shift_invariant` on the array `[0, 0, 0]` with shift 5. -/
theorem softmax_witness :
    gpu_sum (gpu_softmax ([0, 0, 0] : List ℝ)) = 1
    ∧ gpu_softmax (([0, 0, 0] : List ℝ).map fun x => x + 5) = gpu_softmax [0, 0, 0] :=
  ⟨(softmax_sum_one_shift_invariant [0, 0, 0] (by simp)).1,
   (softmax_sum_one_shift_invariant [0, 0, 0] (by simp)).2.1 5⟩

/-- Claim C4: `gpu_softmax_at_label` leaves the input array unchanged (its
only traversal is a read-only fused transform-reduce), writes its return
value into element 0 of the one-element output buffer, and that value
equals `(array[label] - max) - log(sum(exp(x - max)))`, which is the log
of the softmax output at the label. -/
theorem softmax_at_label_spec (xs : List ℝ) (outLogProb : List ℝ) (label : ℕ)
    (h : xs ≠ []) (hl : label < xs.length) :
    (gpu_softmax_at_label xs label outLogProb).1 = xs
    ∧ (gpu_softmax_at_label xs label outLogProb).2.1 =
        outLogProb.set 0 (gpu_softmax_at_label xs label outLogProb).2.2
    ∧ (gpu_softmax_at_label xs label outLogProb).2.2 =
        (xs.getD label 0 - gpu_max xs) -
          Real.log (gpu_sum (xs.map fun y => Real.exp (y - gpu_max xs)))
    ∧ (gpu_softmax_at_label xs label outLogProb).2.2 =
        Real.log ((gpu_softmax xs).getD label 0) := by
  have hpos := softmax_denom_pos xs (gpu_max xs) h
  refine ⟨rfl, rfl, ?_, ?_⟩
  · rw [gpu_softmax_at_label]
    rw [functor_exp_shift]
  · rw [gpu_softmax_at_label, functor_exp_shift]
    set mx := gpu_max xs
    set s := gpu_sum (xs.map fun y => Real.exp (y - mx)) with hs
    have hgd : (gpu_softmax xs).getD label 0 = Real.exp (xs.getD label 0 - mx) * s⁻¹ := by
      rw [gpu_softmax_eq, List.getD_eq_getElem?_getD, List.getElem?_map,
        List.getElem?_eq_getElem hl]
      have hgx : xs.getD label 0 = xs[label] := by
        rw [List.getD_eq_getElem?_getD, List.getElem?_eq_getElem hl]
        rfl
      rw [hgx]
      rfl
    rw [hgd, Real.log_mul (Real.exp_ne_zero _) (inv_ne_zero (ne_of_gt hpos)),
      Real.log_exp, Real.log_inv]
    ring

/-- Claim C4 witness: a concrete instance of `softmax_at_label_spec` on
the array `[0, 0]`, label 0, one-element output buffer `[0]`. -/
theorem softmax_at_label_witness :
    (gpu_softmax_at_label ([0, 0] : List ℝ) 0 [0]).1 = [0, 0]
    ∧ (gpu_softmax_at_label ([0, 0] : List ℝ) 0 [0]).2.2 =
        Real.log ((gpu_softmax [0, 0]).getD 0 0) :=
  ⟨(softmax_at_label_spec [0, 0] [0] 0 (by simp) (by simp)).1,
   (softmax_at_label_spec [0, 0] [0] 0 (by simp) (by simp)).2.2.2⟩

/-- Claim C10: on every non-empty input and in-range label, the deprecated
`gpu_softmax_minus_id_2` (in-place `exp(A - (mx + log(sum(exp(A - mx)))))`
then decrement at the label) produces exactly the contents that the
current `gpu_softmax_minus_id` produces in place on the same input. -/
theorem softmax_minus_id_2_equiv (xs : List ℝ) (label : ℕ) (h : xs ≠ [])
    (_hl : label < xs.length) :
    gpu_softmax_minus_id_2 xs label = gpu_softmax_minus_id xs label := by
  have hpos := softmax_denom_pos xs (gpu_max xs) h
  rw [gpu_softmax_minus_id_2, gpu_softmax_minus_id]
  congr 1
  rw [gpu_softmax_eq, functor_exp_shift, gpu_exp_shift]
  refine List.map_congr_left ?_
  intro x _
  set mx := gpu_max xs
  set s := gpu_sum (xs.map fun y => Real.exp (y - mx)) with hs
  have harg : x - (mx + Real.log s) = (x - mx) - Real.log s := by ring
  rw [harg, Real.exp_sub, Real.exp_log hpos, div_eq_mul_inv]

/-- Claim C10 witness: the two cross-entropy-gradient paths agree on the
concrete array `[0, 0]` with label 0. -/
theorem softmax_minus_id_2_witness :
    gpu_softmax_minus_id_2 ([0, 0] : List ℝ) 0 = gpu_softmax_minus_id ([0, 0] : List ℝ) 0 :=
  softmax_minus_id_2_equiv [0, 0] 0 (by simp) (by simp)

end MyGpu
